import Mathlib

/-!
Shallow embedding of the contact-book core from `src/task_01.py`
(classes `Name`, `Phone`, `Birthday`, `Record`, `AddressBook`).

Conventions of the embedding:
* Python strings are Lean `String`s; `str.strip` / `str.isdigit` are modelled
  over the ASCII range (`pyStrip`, `pyIsDigit`).
* `datetime.date` is the structure `PyDate` (proleptic Gregorian calendar);
  `date.toordinal` is `PyDate.toOrdinal`, `date.weekday` is `PyDate.weekday`
  (Monday = 0), `date.replace(year=y)` is `replaceYear` (it can fail, e.g.
  Feb 29 into a non-leap year), and `strftime "%d.%m.%Y"` is `PyDate.format`
  with zero-padded two-digit day and month and four-digit year.
* A Python method that can raise is embedded as a function returning
  `Except String α × State`: the first component is the raised message or the
  returned value, the second is the state of the object after the call (the
  object survives an exception, so the state at the raise point is returned).
* `AddressBook` (a `UserDict`) is an insertion-ordered association list, as a
  Python `dict` is: inserting an existing key overwrites in place, inserting a
  new key appends.
-/

/-- A calendar date as Python's `datetime.date`: year, month (1-12), day. -/
structure PyDate where
  year : Nat
  month : Nat
  day : Nat
deriving Repr, DecidableEq

/-- Gregorian leap-year rule, as `calendar.isleap` / `datetime`. -/
def isLeap (y : Nat) : Bool :=
  y % 4 == 0 && (y % 100 != 0 || y % 400 == 0)

/-- Number of days of month `m` in year `y` (months numbered 1-12). -/
def daysInMonth (y m : Nat) : Nat :=
  if m == 2 then (if isLeap y then 29 else 28)
  else if m == 4 || m == 6 || m == 9 || m == 11 then 30
  else 31

/-- The validity check done by the `datetime.date` constructor. -/
def PyDate.valid (d : PyDate) : Bool :=
  1 ≤ d.year && d.year ≤ 9999 && 1 ≤ d.month && d.month ≤ 12 &&
    1 ≤ d.day && d.day ≤ daysInMonth d.year d.month

/-- Days of year `y` before the first day of month `m`. -/
def daysBeforeMonth (y m : Nat) : Nat :=
  ((List.range (m - 1)).map (fun i => daysInMonth y (i + 1))).foldl (· + ·) 0

/-- `date.toordinal`: day 1 is 01.01.0001 of the proleptic Gregorian calendar. -/
def PyDate.toOrdinal (d : PyDate) : Nat :=
  365 * (d.year - 1) + ((d.year - 1) / 4 - (d.year - 1) / 100 + (d.year - 1) / 400) +
    daysBeforeMonth d.year d.month + d.day

/-- `date.weekday`: Monday = 0 .. Sunday = 6 (01.01.0001 was a Monday). -/
def PyDate.weekday (d : PyDate) : Nat :=
  (d.toOrdinal + 6) % 7

/-- Python `date` comparison (`<`), lexicographic on (year, month, day). -/
def dateLt (a b : PyDate) : Bool :=
  a.year < b.year || (a.year == b.year &&
    (a.month < b.month || (a.month == b.month && a.day < b.day)))

/-- Successor day of a valid date (used to embed `+ timedelta(days=n)`). -/
def nextDay (d : PyDate) : PyDate :=
  if d.day < daysInMonth d.year d.month then ⟨d.year, d.month, d.day + 1⟩
  else if d.month < 12 then ⟨d.year, d.month + 1, 1⟩
  else ⟨d.year + 1, 1, 1⟩

/-- `d + timedelta(days=n)` for a valid date `d`. -/
def addDays (n : Nat) (d : PyDate) : PyDate :=
  Nat.iterate nextDay n d

/-- The character for a decimal digit `n < 10`. -/
def natToDigitChar (n : Nat) : Char :=
  Char.ofNat (48 + n)

/-- Two-digit zero-padded decimal rendering (strftime `%d`, `%m`). -/
def pad2 (n : Nat) : List Char :=
  [natToDigitChar (n / 10), natToDigitChar (n % 10)]

/-- Four-digit zero-padded decimal rendering (strftime `%Y`). -/
def pad4 (n : Nat) : List Char :=
  [natToDigitChar (n / 1000), natToDigitChar (n / 100 % 10),
   natToDigitChar (n / 10 % 10), natToDigitChar (n % 10)]

/-- `date.strftime("%d.%m.%Y")`. -/
def PyDate.format (d : PyDate) : String :=
  String.mk (pad2 d.day ++ '.' :: (pad2 d.month ++ '.' :: pad4 d.year))

/-- Numeric value of a decimal digit character. -/
def digitVal (c : Char) : Nat :=
  c.toNat - 48

/-- Decimal value of a digit string. -/
def parseNatDigits (cs : List Char) : Nat :=
  cs.foldl (fun a c => 10 * a + digitVal c) 0

/-- Split a character list at every `'.'` (like `str.split(".")`). -/
def splitDots : List Char → List (List Char)
  | [] => [[]]
  | c :: cs =>
    if c = '.' then [] :: splitDots cs
    else
      match splitDots cs with
      | [] => [[c]]
      | f :: fs => (c :: f) :: fs

/-- One `%d` / `%m` field of `strptime`: one or two digits whose value lies in
`lo..hi` (this is exactly the regex `3[01]|[12]\d|0[1-9]|[1-9]` resp.
`1[0-2]|0[1-9]|[1-9]` used by CPython's `_strptime`). -/
def parseField12 (lo hi : Nat) (cs : List Char) : Option Nat :=
  if (cs.length = 1 ∨ cs.length = 2) ∧ cs.all Char.isDigit then
    if lo ≤ parseNatDigits cs ∧ parseNatDigits cs ≤ hi then some (parseNatDigits cs)
    else none
  else none

/-- The `%Y` field of `strptime`: exactly four digits (regex `\d\d\d\d`). -/
def parseYear4 (cs : List Char) : Option Nat :=
  if cs.length = 4 ∧ cs.all Char.isDigit then some (parseNatDigits cs)
  else none

/-- `Birthday.__init__`: `datetime.strptime(value, "%d.%m.%Y").date()`, i.e.
day field, literal dot, month field, literal dot, four-digit year, whole
string consumed, then the `date` constructor's calendar validity check
(which also rejects year 0). -/
def Birthday.mk (s : String) : Option PyDate :=
  match splitDots s.data with
  | [df, mf, yf] =>
    match parseField12 1 31 df, parseField12 1 12 mf, parseYear4 yf with
    | some d, some m, some y =>
      if 1 ≤ y ∧ d ≤ daysInMonth y m then some ⟨y, m, d⟩ else none
    | _, _, _ => none
  | _ => none

/-- `Birthday.date_to_string`: `strftime("%d.%m.%Y")` on the stored date. -/
def Birthday.date_to_string (d : PyDate) : String :=
  d.format

/-- ASCII whitespace stripped by `str.strip`. -/
def isWs (c : Char) : Bool :=
  c == ' ' || c == '\t' || c == '\n' || c == '\r' || c == '\x0b' || c == '\x0c'

/-- `str.strip()` (modelled over the ASCII whitespace characters). -/
def pyStrip (s : String) : String :=
  String.mk (((s.data.dropWhile isWs).reverse.dropWhile isWs).reverse)

/-- `Name.__init__`: rejects a string that strips to empty, stores the
stripped string. -/
def Name.mk (s : String) : Option String :=
  if pyStrip s = "" then none else some (pyStrip s)

/-- `str.isdigit` (modelled over the ASCII range): non-empty and all digits. -/
def pyIsDigit (s : String) : Bool :=
  !s.data.isEmpty && s.data.all Char.isDigit

/-- `Phone.__init__`: rejects unless `value.isdigit() and len(value) == 10`;
stores the string unchanged. -/
def Phone.mk (s : String) : Option String :=
  if pyIsDigit s && s.length == 10 then some s else none

/-- One contact: `Record` from the source (a `Name` value, the ordered list of
`Phone` values, an optional `Birthday` date). -/
structure Record where
  name : String
  phones : List String
  birthday : Option PyDate
deriving Repr, DecidableEq

/-- `Record.__init__`: validates the name via `Name`, starts with no phones
and no birthday. -/
def Record.new (name : String) : Option Record :=
  match Name.mk name with
  | none => none
  | some n => some ⟨n, [], none⟩

/-- First phone value equal to `p` (`Record.find_phone`'s generator). -/
def findPhoneList : List String → String → Option String
  | [], _ => none
  | x :: xs, p => if x == p then some x else findPhoneList xs p

/-- `Record.find_phone`. -/
def Record.find_phone (r : Record) (p : String) : Option String :=
  findPhoneList r.phones p

/-- `Record.add_phone`: duplicate check first, then `Phone` validation, then
append. -/
def Record.add_phone (r : Record) (p : String) : Except String Unit × Record :=
  if (r.find_phone p).isSome then
    (Except.error "Phone number already in use. Enter a new phone number.", r)
  else
    match Phone.mk p with
    | none => (Except.error "Phone number must contain 10 digits.", r)
    | some v => (Except.ok (), ⟨r.name, r.phones ++ [v], r.birthday⟩)

/-- Remove the first element equal to `p` (`list.remove` of the object found
by `find_phone`, which is the first phone with that value). -/
def removeFirst : List String → String → List String
  | [], _ => []
  | x :: xs, p => if x == p then xs else x :: removeFirst xs p

/-- `Record.remove_phone`: returns whether a phone was removed; never raises. -/
def Record.remove_phone (r : Record) (p : String) : Bool × Record :=
  if (r.find_phone p).isSome then (true, ⟨r.name, removeFirst r.phones p, r.birthday⟩)
  else (false, r)

/-- Replace the value of the first element equal to `old` by `new` (the
in-place `phone.value = ...` assignment of `edit_phone`). -/
def replaceFirst : List String → String → String → List String
  | [], _, _ => []
  | x :: xs, old, new => if x == old then new :: xs else x :: replaceFirst xs old new

/-- `Record.edit_phone`: not-found check on the old number, then duplicate
check on the new number (against all phones, including the matched one), then
`Phone` validation of the new number, then in-place replacement. -/
def Record.edit_phone (r : Record) (old new : String) : Except String Bool × Record :=
  match r.find_phone old with
  | none => (Except.error "Phone number not found.", r)
  | some _ =>
    if (r.find_phone new).isSome then
      (Except.error "Phone number already in use. Enter a new phone number.", r)
    else
      match Phone.mk new with
      | none => (Except.error "Phone number must contain 10 digits.", r)
      | some v => (Except.ok true, ⟨r.name, replaceFirst r.phones old v, r.birthday⟩)

/-- `Record.add_birthday`: validates via `Birthday`, then overwrites
unconditionally. -/
def Record.add_birthday (r : Record) (ds : String) : Except String Bool × Record :=
  match Birthday.mk ds with
  | none => (Except.error "Invalid date format. Use DD.MM.YYYY", r)
  | some bd => (Except.ok true, ⟨r.name, r.phones, some bd⟩)

/-- `AddressBook` wraps a `dict` from name string to `Record`; embedded as an
insertion-ordered association list. -/
abbrev AddressBook := List (String × Record)

/-- `dict` assignment `self.data[k] = v`: overwrite in place or append. -/
def insertKey : AddressBook → String → Record → AddressBook
  | [], k, v => [(k, v)]
  | (k', v') :: rest, k, v =>
    if k' == k then (k, v) :: rest else (k', v') :: insertKey rest k v

/-- `dict.get`. -/
def findKey : AddressBook → String → Option Record
  | [], _ => none
  | (k', v') :: rest, k => if k' == k then some v' else findKey rest k

/-- `k in dict`. -/
def containsKey (b : AddressBook) (k : String) : Bool :=
  b.any (fun kv => kv.1 == k)

/-- `del dict[k]` (removes the unique entry with key `k`). -/
def eraseKey : AddressBook → String → AddressBook
  | [], _ => []
  | (k', v') :: rest, k => if k' == k then rest else (k', v') :: eraseKey rest k

/-- `AddressBook.add_record`: `self.data[record.name.value] = record`. -/
def AddressBook.add_record (b : AddressBook) (r : Record) : AddressBook :=
  insertKey b r.name r

/-- `AddressBook.find`: `self.data.get(name)`. -/
def AddressBook.find (b : AddressBook) (n : String) : Option Record :=
  findKey b n

/-- `AddressBook.delete`: true and removal when the key exists, false and no
change otherwise. -/
def AddressBook.delete (b : AddressBook) (n : String) : Bool × AddressBook :=
  if containsKey b n then (true, eraseKey b n) else (false, b)

/-- `date.replace(year=y)`: re-runs the `date` constructor checks with the new
year; fails (raises `ValueError`) e.g. for Feb 29 into a non-leap year. -/
def replaceYear (d : PyDate) (y : Nat) : Option PyDate :=
  if 1 ≤ y ∧ y ≤ 9999 ∧ 1 ≤ d.month ∧ d.month ≤ 12 ∧ 1 ≤ d.day ∧
      d.day ≤ daysInMonth y d.month then
    some ⟨y, d.month, d.day⟩
  else none

/-- Lines 126-129 of the source: move the birthday to `today`'s year, and to
the next year when the result is before `today`. -/
def yearShift (today bd : PyDate) : Option PyDate :=
  match replaceYear bd today.year with
  | none => none
  | some b1 => if dateLt b1 today then replaceYear b1 (today.year + 1) else some b1

/-- `(birthday_this_year - today).days`. -/
def daysDelta (today bty : PyDate) : Int :=
  (bty.toOrdinal : Int) - (today.toOrdinal : Int)

/-- Lines 136-139 of the source: Saturday moves 2 days forward, Sunday 1. -/
def weekendShift (d : PyDate) : PyDate :=
  if d.weekday == 5 then addDays 2 d
  else if d.weekday == 6 then addDays 1 d
  else d

/-- One iteration of the `get_upcoming_birthdays` loop body on a record:
`none` = an uncaught `ValueError` from `date.replace`; `some none` = record
skipped or filtered out; `some (some e)` = entry `e` appended. -/
def processRecord (today : PyDate) (r : Record) : Option (Option (String × String)) :=
  match r.birthday with
  | none => some none
  | some bd =>
    match yearShift today bd with
    | none => none
    | some bty =>
      if 0 ≤ daysDelta today bty ∧ daysDelta today bty ≤ 7 then
        some (some (r.name, (weekendShift bty).format))
      else some none

/-- The `get_upcoming_birthdays` loop over the record list; an exception in
any iteration aborts the whole call. -/
def upcomingAux (today : PyDate) : List Record → Option (List (String × String))
  | [] => some []
  | r :: rs =>
    match processRecord today r with
    | none => none
    | some none => upcomingAux today rs
    | some (some e) =>
      match upcomingAux today rs with
      | none => none
      | some l => some (e :: l)

/-- `AddressBook.get_upcoming_birthdays`, with `datetime.today()` passed in as
the parameter `today`; `none` models the call raising an uncaught
`ValueError`. -/
def AddressBook.get_upcoming_birthdays (b : AddressBook) (today : PyDate) :
    Option (List (String × String)) :=
  upcomingAux today (b.map (fun kv => kv.2))

/-! Helper lemmas about the list operations of the embedding. -/

theorem findPhoneList_eq_none {l : List String} {p : String} :
    findPhoneList l p = none ↔ p ∉ l := by
  induction l with
  | nil => simp [findPhoneList]
  | cons x xs ih =>
    by_cases hx : x = p
    · simp [findPhoneList, hx]
    · simp [findPhoneList, hx, ih, Ne.symm hx]

theorem findPhoneList_isSome {l : List String} {p : String} :
    (findPhoneList l p).isSome = true ↔ p ∈ l := by
  induction l with
  | nil => simp [findPhoneList]
  | cons x xs ih =>
    by_cases hx : x = p
    · simp [findPhoneList, hx]
    · simp [findPhoneList, hx, ih, Ne.symm hx]

theorem findPhoneList_append {l l' : List String} {p : String}
    (h : findPhoneList l p = none) :
    findPhoneList (l ++ l') p = findPhoneList l' p := by
  induction l with
  | nil => simp
  | cons x xs ih =>
    by_cases hx : x = p
    · simp [findPhoneList, hx] at h
    · simp only [findPhoneList, List.cons_append] at h ⊢
      rw [if_neg (by simp [hx])] at h ⊢
      exact ih h

theorem replaceFirst_get {l : List String} {old : String} (new : String)
    (h : old ∈ l) :
    ∃ j, l.get? j = some old ∧ (∀ i, i < j → l.get? i ≠ some old) ∧
      (replaceFirst l old new).get? j = some new ∧
      ∀ i, i ≠ j → (replaceFirst l old new).get? i = l.get? i := by
  induction l with
  | nil => simp at h
  | cons x xs ih =>
    by_cases hx : x = old
    · refine ⟨0, by simp [hx], fun i hi => absurd hi (Nat.not_lt_zero i), ?_, ?_⟩
      · simp [replaceFirst, hx]
      · intro i hi
        cases i with
        | zero => exact absurd rfl hi
        | succ k => simp [replaceFirst, hx]
    · have hmem : old ∈ xs := by
        rcases List.mem_cons.mp h with h1 | h1
        · exact absurd h1.symm hx
        · exact h1
      obtain ⟨j, h1, h2, h3, h4⟩ := ih hmem
      refine ⟨j + 1, by simpa using h1, ?_, ?_, ?_⟩
      · intro i hi
        cases i with
        | zero => simpa using fun heq => hx heq
        | succ k => simpa using h2 k (by omega)
      · simpa [replaceFirst, hx] using h3
      · intro i hi
        cases i with
        | zero => simp [replaceFirst, hx]
        | succ k => simpa [replaceFirst, hx] using h4 k (by omega)

/-- C5: `Phone.mk p` succeeds (storing exactly `p`) iff `p` is exactly 10
digit characters, and fails otherwise. -/
theorem phone_validation_complete (p : String) :
    (Phone.mk p = some p ↔ p.length = 10 ∧ p.data.all Char.isDigit = true) ∧
    (Phone.mk p = none ↔ ¬(p.length = 10 ∧ p.data.all Char.isDigit = true)) := by
  have hlen : p.length = p.data.length := rfl
  have key : (pyIsDigit p && p.length == 10) = true ↔
      (p.length = 10 ∧ p.data.all Char.isDigit = true) := by
    simp only [pyIsDigit, Bool.and_eq_true, Bool.not_eq_true', beq_iff_eq]
    constructor
    · rintro ⟨⟨-, hd⟩, hl⟩
      exact ⟨hl, hd⟩
    · rintro ⟨hl, hd⟩
      refine ⟨⟨?_, hd⟩, hl⟩
      cases hdata : p.data with
      | nil => rw [hlen, hdata] at hl; simp at hl
      | cons a l => simp
  constructor
  · rw [Phone.mk, ← key]
    constructor
    · intro h
      by_contra hc
      rw [if_neg (by simpa using hc)] at h
      exact Option.noConfusion h
    · intro h
      rw [if_pos h]
  · rw [Phone.mk, ← key]
    constructor
    · intro h
      intro hc
      rw [if_pos hc] at h
      exact Option.noConfusion h
    · intro h
      rw [if_neg (by simpa using h)]

/-- C1 counterexample: editing a phone to its own current value does NOT
succeed; the duplicate check also matches the phone being edited, so the call
raises the duplicate error and leaves the record unchanged. -/
theorem edit_phone_self_edit_rejected :
    Record.edit_phone ⟨"Ann", ["1234567890"], none⟩ "1234567890" "1234567890"
      = (Except.error "Phone number already in use. Enter a new phone number.",
         ⟨"Ann", ["1234567890"], none⟩) := by
  rfl

/-- C1 (amended): `edit_phone old new` fails with the not-found error when
`old` is not stored; otherwise it fails with the duplicate error when `new`
already exists on ANY phone entry, including the one matching `old` (so a
self-edit fails); otherwise it fails with the validation error when `new` is
not a valid 10-digit phone; otherwise it replaces the first phone equal to
`old` by `new` in place, preserving that phone's position. -/
theorem edit_phone_semantics (r : Record) (old new : String) :
    (old ∉ r.phones →
      r.edit_phone old new = (Except.error "Phone number not found.", r)) ∧
    (old ∈ r.phones → new ∈ r.phones →
      r.edit_phone old new =
        (Except.error "Phone number already in use. Enter a new phone number.", r)) ∧
    (old ∈ r.phones → new ∉ r.phones → Phone.mk new = none →
      r.edit_phone old new = (Except.error "Phone number must contain 10 digits.", r)) ∧
    (old ∈ r.phones → new ∉ r.phones → Phone.mk new = some new →
      (r.edit_phone old new).1 = Except.ok true ∧
      (r.edit_phone old new).2.name = r.name ∧
      (r.edit_phone old new).2.birthday = r.birthday ∧
      ∃ j, r.phones.get? j = some old ∧
        (∀ i, i < j → r.phones.get? i ≠ some old) ∧
        (r.edit_phone old new).2.phones.get? j = some new ∧
        ∀ i, i ≠ j → (r.edit_phone old new).2.phones.get? i = r.phones.get? i) := by
  refine ⟨?_, ?_, ?_, ?_⟩
  · intro hold
    have h : findPhoneList r.phones old = none := findPhoneList_eq_none.mpr hold
    simp [Record.edit_phone, Record.find_phone, h]
  · intro hold hnew
    obtain ⟨v, hv⟩ := Option.isSome_iff_exists.mp (findPhoneList_isSome.mpr hold)
    have h2 : (findPhoneList r.phones new).isSome = true := findPhoneList_isSome.mpr hnew
    simp [Record.edit_phone, Record.find_phone, hv, h2]
  · intro hold hnew hmk
    obtain ⟨v, hv⟩ := Option.isSome_iff_exists.mp (findPhoneList_isSome.mpr hold)
    have h2 : findPhoneList r.phones new = none := findPhoneList_eq_none.mpr hnew
    simp [Record.edit_phone, Record.find_phone, hv, h2, hmk]
  · intro hold hnew hmk
    obtain ⟨v, hv⟩ := Option.isSome_iff_exists.mp (findPhoneList_isSome.mpr hold)
    have h2 : findPhoneList r.phones new = none := findPhoneList_eq_none.mpr hnew
    have hres : r.edit_phone old new =
        (Except.ok true, ⟨r.name, replaceFirst r.phones old new, r.birthday⟩) := by
      simp [Record.edit_phone, Record.find_phone, hv, h2, hmk]
    rw [hres]
    exact ⟨rfl, rfl, rfl, replaceFirst_get new hold⟩

/-- C1 witness: on a record that does not store the old number, `edit_phone`
fails with the not-found error and changes nothing. -/
theorem edit_phone_semantics_witness :
    Record.edit_phone ⟨"Ann", ["1111111111"], none⟩ "2222222222" "9999999999"
      = (Except.error "Phone number not found.", ⟨"Ann", ["1111111111"], none⟩) :=
  (edit_phone_semantics ⟨"Ann", ["1111111111"], none⟩ "2222222222" "9999999999").1
    (by decide)

/-- C2: whenever a core operation fails (raises, or reports `false` for the
boolean removal operations), the record resp. the address book is returned
exactly as it was: no partial mutation. (`add_record` cannot fail at all.) -/
theorem no_partial_mutation_on_failure (r : Record) (p old new ds q n : String)
    (b : AddressBook) :
    (∀ e, (r.add_phone p).1 = Except.error e → (r.add_phone p).2 = r) ∧
    (∀ e, (r.edit_phone old new).1 = Except.error e → (r.edit_phone old new).2 = r) ∧
    (∀ e, (r.add_birthday ds).1 = Except.error e → (r.add_birthday ds).2 = r) ∧
    ((r.remove_phone q).1 = false → (r.remove_phone q).2 = r) ∧
    ((b.delete n).1 = false → (b.delete n).2 = b) := by
  refine ⟨?_, ?_, ?_, ?_, ?_⟩
  · intro e
    unfold Record.add_phone
    split
    · intro _; rfl
    · cases hm : Phone.mk p <;> simp [hm]
  · intro e
    unfold Record.edit_phone
    cases hf : r.find_phone old with
    | none => intro _; rfl
    | some v =>
      simp only
      split
      · intro _; rfl
      · cases hm : Phone.mk new <;> simp [hm]
  · intro e
    unfold Record.add_birthday
    cases hm : Birthday.mk ds <;> simp [hm]
  · unfold Record.remove_phone
    split
    · simp
    · intro _; rfl
  · unfold AddressBook.delete
    split
    · simp
    · intro _; rfl

/-- C2 witness: concrete failing calls of every fallible operation leave the
concrete states unchanged. -/
theorem no_partial_mutation_on_failure_witness :
    (Record.add_phone ⟨"A", ["1234567890"], none⟩ "1234567890").2
        = ⟨"A", ["1234567890"], none⟩ ∧
    (Record.edit_phone ⟨"A", ["1234567890"], none⟩ "2222222222" "3333333333").2
        = ⟨"A", ["1234567890"], none⟩ ∧
    (Record.add_birthday ⟨"A", ["1234567890"], none⟩ "not a date").2
        = ⟨"A", ["1234567890"], none⟩ ∧
    (Record.remove_phone ⟨"A", ["1234567890"], none⟩ "2222222222").2
        = ⟨"A", ["1234567890"], none⟩ ∧
    (AddressBook.delete [] "Ann").2 = [] := by
  have T := no_partial_mutation_on_failure ⟨"A", ["1234567890"], none⟩
    "1234567890" "2222222222" "3333333333" "not a date" "2222222222" "Ann" []
  exact ⟨T.1 _ rfl, T.2.1 _ rfl, T.2.2.1 _ rfl, T.2.2.2.1 rfl, T.2.2.2.2 rfl⟩

theorem Phone.mk_eq_some {p v : String} (h : Phone.mk p = some v) : v = p := by
  unfold Phone.mk at h
  split at h
  · exact (Option.some.inj h).symm
  · exact Option.noConfusion h

/-- C6: after a successful `add_phone p` (which appends `p` at the end,
keeping the existing phones in order), a second `add_phone p` fails with the
duplicate error and leaves the phone list unchanged. -/
theorem add_phone_idempotent_rejecting (r : Record) (p : String)
    (h : (r.add_phone p).1 = Except.ok ()) :
    (r.add_phone p).2.phones = r.phones ++ [p] ∧
    ((r.add_phone p).2.add_phone p).1
      = Except.error "Phone number already in use. Enter a new phone number." ∧
    ((r.add_phone p).2.add_phone p).2 = (r.add_phone p).2 := by
  have hsplit : r.find_phone p = none ∧ Phone.mk p = some p := by
    unfold Record.add_phone at h
    split at h
    · exact absurd h (by simp)
    · next hc =>
      cases hm : Phone.mk p with
      | none => rw [hm] at h; exact absurd h (by simp)
      | some v =>
        refine ⟨Option.not_isSome_iff_eq_none.mp hc, ?_⟩
        exact congrArg some (Phone.mk_eq_some hm)
  obtain ⟨hfind, hmk⟩ := hsplit
  have hr' : (r.add_phone p).2 = ⟨r.name, r.phones ++ [p], r.birthday⟩ := by
    simp [Record.add_phone, hfind, hmk]
  have hfind2 : findPhoneList (r.phones ++ [p]) p = some p := by
    rw [findPhoneList_append (by simpa [Record.find_phone] using hfind)]
    simp [findPhoneList]
  rw [hr']
  refine ⟨rfl, ?_, ?_⟩ <;> simp [Record.add_phone, Record.find_phone, hfind2]

/-- C6 witness: adding `"1234567890"` to a fresh record succeeds and appends;
the second identical add is rejected with no change. -/
theorem add_phone_idempotent_rejecting_witness :
    ((⟨"Ann", [], none⟩ : Record).add_phone "1234567890").2.phones
        = [] ++ ["1234567890"] ∧
    ((((⟨"Ann", [], none⟩ : Record).add_phone "1234567890").2).add_phone "1234567890").1
        = Except.error "Phone number already in use. Enter a new phone number." ∧
    ((((⟨"Ann", [], none⟩ : Record).add_phone "1234567890").2).add_phone "1234567890").2
        = ((⟨"Ann", [], none⟩ : Record).add_phone "1234567890").2 :=
  add_phone_idempotent_rejecting ⟨"Ann", [], none⟩ "1234567890" rfl

theorem removeFirst_split {l : List String} {p : String} (h : p ∈ l) :
    ∃ m1 m2, l = m1 ++ p :: m2 ∧ removeFirst l p = m1 ++ m2 ∧ p ∉ m1 := by
  induction l with
  | nil => simp at h
  | cons x xs ih =>
    by_cases hx : x = p
    · exact ⟨[], xs, by simp [hx], by simp [removeFirst, hx], by simp⟩
    · have hmem : p ∈ xs := by
        rcases List.mem_cons.mp h with h1 | h1
        · exact absurd h1.symm hx
        · exact h1
      obtain ⟨m1, m2, he, hr, hnm⟩ := ih hmem
      exact ⟨x :: m1, m2, by simp [he], by simp [removeFirst, hx, hr],
        by simp [hnm, Ne.symm hx]⟩

theorem containsKey_eq_false {b : AddressBook} {n : String} :
    containsKey b n = false ↔ n ∉ b.map Prod.fst := by
  rw [← Bool.not_eq_true]
  simp [containsKey, List.any_eq_true, List.mem_map]

theorem eraseKey_split {b : AddressBook} {n : String} (h : containsKey b n = true) :
    ∃ l1 v l2, b = l1 ++ (n, v) :: l2 ∧ eraseKey b n = l1 ++ l2 ∧
      n ∉ l1.map Prod.fst := by
  induction b with
  | nil => simp [containsKey] at h
  | cons kv rest ih =>
    obtain ⟨k, v⟩ := kv
    by_cases hk : k = n
    · exact ⟨[], v, rest, by simp [hk], by simp [eraseKey, hk], by simp⟩
    · have h' : containsKey rest n = true := by
        simpa [containsKey, hk] using h
      obtain ⟨l1, v', l2, he, hr, hnm⟩ := ih h'
      exact ⟨(k, v) :: l1, v', l2, by simp [he], by simp [eraseKey, hk, hr],
        by simp [hnm, Ne.symm hk]⟩

/-- C7: `delete` on an absent key returns false and changes nothing, on a
present key returns true and removes exactly that entry; `remove_phone` on an
absent value returns false and changes nothing, on a present value returns
true, the value is gone, and the remaining phones keep their relative order. -/
theorem removal_by_absence_not_error (b : AddressBook) (n : String)
    (r : Record) (p : String) :
    (containsKey b n = false → b.delete n = (false, b)) ∧
    ((b.map Prod.fst).Nodup → containsKey b n = true →
      (b.delete n).1 = true ∧
      containsKey (b.delete n).2 n = false ∧
      ∃ l1 v l2, b = l1 ++ (n, v) :: l2 ∧ (b.delete n).2 = l1 ++ l2) ∧
    (p ∉ r.phones → r.remove_phone p = (false, r)) ∧
    (r.phones.Nodup → p ∈ r.phones →
      (r.remove_phone p).1 = true ∧
      p ∉ (r.remove_phone p).2.phones ∧
      ∃ m1 m2, r.phones = m1 ++ p :: m2 ∧ (r.remove_phone p).2.phones = m1 ++ m2) := by
  refine ⟨?_, ?_, ?_, ?_⟩
  · intro h
    simp [AddressBook.delete, h]
  · intro hnd h
    obtain ⟨l1, v, l2, he, hr, hn1⟩ := eraseKey_split h
    have hdel : b.delete n = (true, eraseKey b n) := by
      simp [AddressBook.delete, h]
    refine ⟨by simp [hdel], ?_, ⟨l1, v, l2, he, by simp [hdel, hr]⟩⟩
    have hn2 : n ∉ l2.map Prod.fst := by
      rw [he] at hnd
      simp only [List.map_append, List.map_cons] at hnd
      exact (List.nodup_cons.mp hnd.of_append_right).1
    rw [hdel]
    simp only [hr]
    rw [containsKey_eq_false]
    simp [hn1, hn2]
  · intro h
    have hf : findPhoneList r.phones p = none := findPhoneList_eq_none.mpr h
    simp [Record.remove_phone, Record.find_phone, hf]
  · intro hnd h
    obtain ⟨m1, m2, he, hr, hn1⟩ := removeFirst_split h
    have hrem : r.remove_phone p = (true, ⟨r.name, removeFirst r.phones p, r.birthday⟩) := by
      simp [Record.remove_phone, Record.find_phone, findPhoneList_isSome.mpr h]
    have hn2 : p ∉ m2 := by
      rw [he] at hnd
      exact (List.nodup_cons.mp hnd.of_append_right).1
    refine ⟨by simp [hrem], ?_, ⟨m1, m2, he, by simp [hrem, hr]⟩⟩
    rw [hrem]
    simp only [hr]
    simp [hn1, hn2]

/-- C7 witness: a concrete book and record exercising both the absent
(false, unchanged) and the present (true, removed) cases. -/
theorem removal_by_absence_not_error_witness :
    AddressBook.delete [("Ann", ⟨"Ann", [], none⟩)] "Bob"
        = (false, [("Ann", ⟨"Ann", [], none⟩)]) ∧
    (AddressBook.delete [("Ann", ⟨"Ann", [], none⟩)] "Ann").1 = true ∧
    Record.remove_phone ⟨"Ann", ["1234567890"], none⟩ "2222222222"
        = (false, ⟨"Ann", ["1234567890"], none⟩) ∧
    (Record.remove_phone ⟨"Ann", ["1234567890"], none⟩ "1234567890").1 = true := by
  have T1 := removal_by_absence_not_error [("Ann", ⟨"Ann", [], none⟩)] "Bob"
    ⟨"Ann", ["1234567890"], none⟩ "2222222222"
  have T2 := removal_by_absence_not_error [("Ann", ⟨"Ann", [], none⟩)] "Ann"
    ⟨"Ann", ["1234567890"], none⟩ "1234567890"
  exact ⟨T1.1 rfl, (T2.2.1 (by decide) rfl).1, T1.2.2.1 (by decide),
    (T2.2.2.2 (by decide) (by decide)).1⟩

theorem upcomingAux_none {today : PyDate} {rs : List Record} {r : Record}
    (hm : r ∈ rs) (hp : processRecord today r = none) :
    upcomingAux today rs = none := by
  induction rs with
  | nil => simp at hm
  | cons x xs ih =>
    rcases List.mem_cons.mp hm with h | h
    · subst h
      simp [upcomingAux, hp]
    · cases hx : processRecord today x with
      | none => simp [upcomingAux, hx]
      | some o => cases o <;> simp [upcomingAux, hx, ih h]

/-- C9: the birthday query is not total — one record with a February 29
birthday makes the whole call raise (return `none`) whenever the current year
is not a leap year, or the birthday has already passed in a leap year and the
following year is not a leap year. -/
theorem feb29_query_not_total (b : AddressBook) (today : PyDate) (r : Record)
    (bd : PyDate) (hmem : r ∈ b.map Prod.snd) (hb : r.birthday = some bd)
    (hm : bd.month = 2) (hd : bd.day = 29)
    (hleap : isLeap today.year = false ∨
      (dateLt ⟨today.year, 2, 29⟩ today = true ∧ isLeap (today.year + 1) = false)) :
    b.get_upcoming_birthdays today = none := by
  apply upcomingAux_none hmem
  have hys : yearShift today bd = none := by
    rcases hleap with hl | ⟨hlt, hl⟩
    · have hdm : daysInMonth today.year bd.month = 28 := by
        rw [hm]; simp [daysInMonth, hl]
      have hc : ¬(1 ≤ today.year ∧ today.year ≤ 9999 ∧ 1 ≤ bd.month ∧
          bd.month ≤ 12 ∧ 1 ≤ bd.day ∧ bd.day ≤ daysInMonth today.year bd.month) := by
        rw [hdm, hd]
        intro hcon
        omega
      have hrep : replaceYear bd today.year = none := by
        simp only [replaceYear, if_neg hc]
      simp [yearShift, hrep]
    · cases hrep : replaceYear bd today.year with
      | none => simp [yearShift, hrep]
      | some b1 =>
        have hb1 : b1 = ⟨today.year, bd.month, bd.day⟩ := by
          unfold replaceYear at hrep
          split at hrep
          · exact (Option.some.inj hrep).symm
          · exact Option.noConfusion hrep
        have hdm : daysInMonth (today.year + 1) 2 = 28 := by
          simp [daysInMonth, hl]
        have hrep2 : replaceYear b1 (today.year + 1) = none := by
          rw [hb1]
          simp [replaceYear, hm, hd, hdm]
        have hltb : dateLt b1 today = true := by
          rw [hb1, hm, hd]
          exact hlt
        simp [yearShift, hrep, hltb, hrep2]
  simp [processRecord, hb, hys]

/-- C9 witness: a book containing a Feb 29 birthday queried in the non-leap
year 2023 raises instead of returning a list. -/
theorem feb29_query_not_total_witness :
    AddressBook.get_upcoming_birthdays
      [("Leap", ⟨"Leap", [], some ⟨2000, 2, 29⟩⟩)] ⟨2023, 3, 1⟩ = none :=
  feb29_query_not_total [("Leap", ⟨"Leap", [], some ⟨2000, 2, 29⟩⟩)] ⟨2023, 3, 1⟩
    ⟨"Leap", [], some ⟨2000, 2, 29⟩⟩ ⟨2000, 2, 29⟩ (by decide) rfl rfl rfl
    (Or.inl (by decide))

theorem findKey_insertKey_self (b : AddressBook) (k : String) (v : Record) :
    findKey (insertKey b k v) k = some v := by
  induction b with
  | nil => simp [insertKey, findKey]
  | cons kv rest ih =>
    obtain ⟨k', v'⟩ := kv
    by_cases hk : k' = k
    · simp [insertKey, findKey, hk]
    · simp [insertKey, findKey, hk, ih]

theorem findKey_insertKey_ne (b : AddressBook) (k : String) (v : Record)
    {n : String} (h : n ≠ k) :
    findKey (insertKey b k v) n = findKey b n := by
  induction b with
  | nil => simp [insertKey, findKey, Ne.symm h]
  | cons kv rest ih =>
    obtain ⟨k', v'⟩ := kv
    by_cases hk : k' = k
    · simp [insertKey, findKey, hk, Ne.symm h]
    · simp [insertKey, findKey, hk, ih]

theorem findKey_eq_none {b : AddressBook} {n : String}
    (h : n ∉ b.map Prod.fst) :
    findKey b n = none := by
  induction b with
  | nil => simp [findKey]
  | cons kv rest ih =>
    obtain ⟨k', v'⟩ := kv
    simp only [List.map_cons, List.mem_cons] at h
    push_neg at h
    simp [findKey, Ne.symm h.1, ih h.2]

theorem containsKey_insertKey_ne (b : AddressBook) (k : String) (v : Record)
    {n : String} (h : n ≠ k) :
    containsKey (insertKey b k v) n = containsKey b n := by
  induction b with
  | nil => simp [insertKey, containsKey, Ne.symm h]
  | cons kv rest ih =>
    obtain ⟨k', v'⟩ := kv
    by_cases hk : k' = k
    · simp [insertKey, containsKey, hk, Ne.symm h] at ih ⊢
    · simp [insertKey, containsKey, hk] at ih ⊢
      rw [ih]

/-- C10: `Record` construction strips the name and `add_record` keys the book
by the stripped name, but `find` and `delete` match their argument exactly;
so a name with surrounding whitespace is retrievable only in stripped form. -/
theorem name_trim_asymmetry (b : AddressBook) (n : String) (r : Record)
    (hkeys : ∀ kv ∈ b, pyStrip kv.1 = kv.1)
    (hne : pyStrip n ≠ n) (hr : Record.new n = some r) :
    r.name = pyStrip n ∧
    (b.add_record r).find (pyStrip n) = some r ∧
    (b.add_record r).find n = none ∧
    (b.add_record r).delete n = (false, b.add_record r) := by
  have hre : r = ⟨pyStrip n, [], none⟩ := by
    cases hname : Name.mk n with
    | none =>
      simp only [Record.new, hname] at hr
      exact Option.noConfusion hr
    | some m =>
      have hm : m = pyStrip n := by
        rw [Name.mk] at hname
        split at hname
        · exact Option.noConfusion hname
        · exact (Option.some.inj hname).symm
      simp only [Record.new, hname, hm] at hr
      exact (Option.some.inj hr).symm
  subst hre
  have hnn : n ≠ pyStrip n := fun h => hne h.symm
  have hnotkey : n ∉ b.map Prod.fst := by
    simp only [List.mem_map]
    rintro ⟨kv, hmem, hkv⟩
    exact hne (by rw [← hkv] at hne ⊢; exact hkeys kv hmem)
  refine ⟨rfl, ?_, ?_, ?_⟩
  · exact findKey_insertKey_self b (pyStrip n) ⟨pyStrip n, [], none⟩
  · show findKey (insertKey b (pyStrip n) ⟨pyStrip n, [], none⟩) n = none
    rw [findKey_insertKey_ne b (pyStrip n) ⟨pyStrip n, [], none⟩ hnn]
    exact findKey_eq_none hnotkey
  · have hcon : containsKey (insertKey b (pyStrip n) ⟨pyStrip n, [], none⟩) n = false := by
      rw [containsKey_insertKey_ne b (pyStrip n) ⟨pyStrip n, [], none⟩ hnn]
      exact containsKey_eq_false.mpr hnotkey
    show AddressBook.delete (insertKey b (pyStrip n) ⟨pyStrip n, [], none⟩) n = _
    simp [AddressBook.delete, AddressBook.add_record, hcon]

/-- C10 witness: `" Bob "` is stored under `"Bob"`; `find`/`delete` with the
untrimmed string miss it. -/
theorem name_trim_asymmetry_witness :
    (AddressBook.add_record [] ⟨"Bob", [], none⟩).find "Bob"
        = some ⟨"Bob", [], none⟩ ∧
    (AddressBook.add_record [] ⟨"Bob", [], none⟩).find " Bob " = none ∧
    (AddressBook.add_record [] ⟨"Bob", [], none⟩).delete " Bob "
        = (false, AddressBook.add_record [] ⟨"Bob", [], none⟩) := by
  have T := name_trim_asymmetry [] " Bob " ⟨"Bob", [], none⟩ (by simp)
    (by decide) (by decide)
  exact ⟨T.2.1, T.2.2.1, T.2.2.2⟩

theorem natToDigitChar_isDigit {n : Nat} (h : n < 10) :
    (natToDigitChar n).isDigit = true := by
  have key : ∀ m, m < 10 → (natToDigitChar m).isDigit = true := by decide
  exact key n h

theorem digitVal_natToDigitChar {n : Nat} (h : n < 10) :
    digitVal (natToDigitChar n) = n := by
  have key : ∀ m, m < 10 → digitVal (natToDigitChar m) = m := by decide
  exact key n h

theorem natToDigitChar_ne_dot {n : Nat} (h : n < 10) :
    ¬ natToDigitChar n = '.' := by
  have key : ∀ m, m < 10 → ¬ natToDigitChar m = '.' := by decide
  exact key n h

theorem daysInMonth_le (y m : Nat) : daysInMonth y m ≤ 31 := by
  unfold daysInMonth
  split_ifs <;> omega

theorem splitDots_append_nodot (l rest : List Char) (h : ∀ c ∈ l, ¬ c = '.')
    (f : List Char) (fs : List (List Char)) (hrest : splitDots rest = f :: fs) :
    splitDots (l ++ rest) = (l ++ f) :: fs := by
  induction l with
  | nil => simpa using hrest
  | cons c l ih =>
    have hc : ¬ c = '.' := h c (List.mem_cons_self c l)
    have ih' := ih (fun x hx => h x (List.mem_cons_of_mem c hx))
    simp only [List.cons_append, splitDots, if_neg hc]
    rw [show splitDots (List.append l rest) = (l ++ f) :: fs from ih']

theorem parseField12_pad2 {lo hi v : Nat} (h1 : lo ≤ v) (h2 : v ≤ hi)
    (h99 : v ≤ 99) :
    parseField12 lo hi (pad2 v) = some v := by
  have ha : v / 10 < 10 := by omega
  have hb : v % 10 < 10 := by omega
  have hval : parseNatDigits (pad2 v) = v := by
    simp only [parseNatDigits, pad2, List.foldl_cons, List.foldl_nil,
      digitVal_natToDigitChar ha, digitVal_natToDigitChar hb]
    omega
  have hdig : (pad2 v).all Char.isDigit = true := by
    simp [pad2, natToDigitChar_isDigit ha, natToDigitChar_isDigit hb]
  unfold parseField12
  rw [if_pos ⟨Or.inr (by simp [pad2]), hdig⟩, hval, if_pos ⟨h1, h2⟩]

theorem parseYear4_pad4 {y : Nat} (h : y ≤ 9999) :
    parseYear4 (pad4 y) = some y := by
  have h1 : y / 1000 < 10 := by omega
  have h2 : y / 100 % 10 < 10 := by omega
  have h3 : y / 10 % 10 < 10 := by omega
  have h4 : y % 10 < 10 := by omega
  have hval : parseNatDigits (pad4 y) = y := by
    simp only [parseNatDigits, pad4, List.foldl_cons, List.foldl_nil,
      digitVal_natToDigitChar h1, digitVal_natToDigitChar h2,
      digitVal_natToDigitChar h3, digitVal_natToDigitChar h4]
    omega
  have hdig : (pad4 y).all Char.isDigit = true := by
    simp [pad4, natToDigitChar_isDigit h1, natToDigitChar_isDigit h2,
      natToDigitChar_isDigit h3, natToDigitChar_isDigit h4]
  unfold parseYear4
  rw [if_pos ⟨by simp [pad4], hdig⟩, hval]

/-- C8: `"25.12.1990"` parses and formats back to itself; `"31.02.2024"` and
`"1990-12-25"` are rejected; and every valid calendar date formatted as
`DD.MM.YYYY` parses back to exactly that date (so the canonical formatter
round-trips on every valid `DD.MM.YYYY` string). -/
theorem splitDots_dot_cons (cs : List Char) :
    splitDots ('.' :: cs) = [] :: splitDots cs := rfl

/-- C8: `"25.12.1990"` parses and formats back to itself; `"31.02.2024"` and
`"1990-12-25"` are rejected; and every valid calendar date formatted as
`DD.MM.YYYY` parses back to exactly that date (so the canonical formatter
round-trips on every valid `DD.MM.YYYY` string). -/
theorem birthday_roundtrip :
    Birthday.mk "25.12.1990" = some ⟨1990, 12, 25⟩ ∧
    Birthday.date_to_string ⟨1990, 12, 25⟩ = "25.12.1990" ∧
    Birthday.mk "31.02.2024" = none ∧
    Birthday.mk "1990-12-25" = none ∧
    ∀ d : PyDate, d.valid = true → Birthday.mk d.format = some d := by
  refine ⟨by decide, by decide, by decide, by decide, ?_⟩
  intro d hv
  simp only [PyDate.valid, Bool.and_eq_true, decide_eq_true_eq] at hv
  obtain ⟨⟨⟨⟨⟨hy1, hy2⟩, hm1⟩, hm2⟩, hd1⟩, hd2⟩ := hv
  have hd31 : d.day ≤ 31 := le_trans hd2 (daysInMonth_le d.year d.month)
  have hnd1 : ∀ c ∈ pad2 d.day, ¬ c = '.' := by
    intro c hc
    simp only [pad2, List.mem_cons, List.not_mem_nil, or_false] at hc
    rcases hc with h | h <;> subst h <;> exact natToDigitChar_ne_dot (by omega)
  have hnd2 : ∀ c ∈ pad2 d.month, ¬ c = '.' := by
    intro c hc
    simp only [pad2, List.mem_cons, List.not_mem_nil, or_false] at hc
    rcases hc with h | h <;> subst h <;> exact natToDigitChar_ne_dot (by omega)
  have hnd3 : ∀ c ∈ pad4 d.year, ¬ c = '.' := by
    intro c hc
    simp only [pad4, List.mem_cons, List.not_mem_nil, or_false] at hc
    rcases hc with h | h | h | h <;> subst h <;> exact natToDigitChar_ne_dot (by omega)
  have h3 : splitDots (pad4 d.year) = [pad4 d.year] := by
    have h := splitDots_append_nodot (pad4 d.year) [] hnd3 [] [] rfl
    simp only [List.append_nil] at h
    exact h
  have h2 : splitDots (pad2 d.month ++ '.' :: pad4 d.year)
      = [pad2 d.month, pad4 d.year] := by
    have hrest : splitDots ('.' :: pad4 d.year) = [] :: [pad4 d.year] := by
      rw [splitDots_dot_cons, h3]
    have h := splitDots_append_nodot (pad2 d.month) ('.' :: pad4 d.year) hnd2
      [] [pad4 d.year] hrest
    rw [List.append_nil] at h
    exact h
  have h1 : splitDots (d.format).data
      = [pad2 d.day, pad2 d.month, pad4 d.year] := by
    show splitDots (pad2 d.day ++ '.' :: (pad2 d.month ++ '.' :: pad4 d.year)) = _
    have hrest : splitDots ('.' :: (pad2 d.month ++ '.' :: pad4 d.year))
        = [] :: [pad2 d.month, pad4 d.year] := by
      rw [splitDots_dot_cons, h2]
    have h := splitDots_append_nodot (pad2 d.day) _ hnd1
      [] [pad2 d.month, pad4 d.year] hrest
    rw [List.append_nil] at h
    exact h
  simp only [Birthday.mk, h1, parseField12_pad2 hd1 hd31 (show d.day ≤ 99 by omega),
    parseField12_pad2 hm1 hm2 (show d.month ≤ 99 by omega), parseYear4_pad4 hy2]
  rw [if_pos ⟨hy1, hd2⟩]

/-- C8 witness: the general round trip instantiated at 29.02.2000 (a valid
leap-day date). -/
theorem birthday_roundtrip_witness :
    Birthday.mk (PyDate.format ⟨2000, 2, 29⟩) = some ⟨2000, 2, 29⟩ :=
  birthday_roundtrip.2.2.2.2 ⟨2000, 2, 29⟩ (by decide)

theorem mem_upcomingAux {today : PyDate} {rs : List Record}
    {L : List (String × String)} (h : upcomingAux today rs = some L)
    (e : String × String) :
    e ∈ L ↔ ∃ r, r ∈ rs ∧ processRecord today r = some (some e) := by
  induction rs generalizing L with
  | nil =>
    simp only [upcomingAux, Option.some.injEq] at h
    subst h
    simp
  | cons x xs ih =>
    cases hx : processRecord today x with
    | none => simp [upcomingAux, hx] at h
    | some o =>
      cases o with
      | none =>
        simp only [upcomingAux, hx] at h
        rw [ih h]
        constructor
        · rintro ⟨r, hm, hp⟩
          exact ⟨r, List.mem_cons_of_mem x hm, hp⟩
        · rintro ⟨r, hm, hp⟩
          rcases List.mem_cons.mp hm with h1 | h1
          · subst h1
            rw [hx] at hp
            simp at hp
          · exact ⟨r, h1, hp⟩
      | some e' =>
        simp only [upcomingAux, hx] at h
        cases hrest : upcomingAux today xs with
        | none => rw [hrest] at h; simp at h
        | some l =>
          rw [hrest] at h
          simp only [Option.some.injEq] at h
          subst h
          constructor
          · intro hmem
            rcases List.mem_cons.mp hmem with h1 | h1
            · exact ⟨x, List.mem_cons_self x xs, by rw [hx, h1]⟩
            · obtain ⟨r, hm, hp⟩ := (ih hrest).mp h1
              exact ⟨r, List.mem_cons_of_mem x hm, hp⟩
          · rintro ⟨r, hm, hp⟩
            rcases List.mem_cons.mp hm with h1 | h1
            · subst h1
              rw [hx] at hp
              have he : e' = e := Option.some.inj (Option.some.inj hp)
              exact List.mem_cons.mpr (Or.inl he.symm)
            · exact List.mem_cons.mpr (Or.inr ((ih hrest).mpr ⟨r, h1, hp⟩))

/-- C3: the 0-7 day window filter is applied to the year-shifted but not
weekend-shifted `birthday_this_year`; Saturday dates move +2 days and Sunday
dates +1 day only in the reported congratulation date; and a record whose
shifted congratulation date falls outside the original window is still
included (concretely: today Sunday 19.05.2024, birthday 25.05, reported as
27.05.2024 at day-delta 8). -/
theorem upcoming_weekend_shift_semantics :
    (∀ d : PyDate,
      (d.weekday = 5 → weekendShift d = addDays 2 d) ∧
      (d.weekday = 6 → weekendShift d = addDays 1 d) ∧
      (d.weekday < 5 → weekendShift d = d)) ∧
    (∀ (today : PyDate) (r : Record) (bd bty : PyDate),
      r.birthday = some bd → yearShift today bd = some bty →
      ((0 ≤ daysDelta today bty ∧ daysDelta today bty ≤ 7) →
        processRecord today r = some (some (r.name, (weekendShift bty).format))) ∧
      (¬(0 ≤ daysDelta today bty ∧ daysDelta today bty ≤ 7) →
        processRecord today r = some none)) ∧
    AddressBook.get_upcoming_birthdays
      [("Eve", ⟨"Eve", [], some ⟨1990, 5, 25⟩⟩)] ⟨2024, 5, 19⟩
      = some [("Eve", "27.05.2024")] ∧
    (7 : Int) < daysDelta ⟨2024, 5, 19⟩ (weekendShift ⟨2024, 5, 25⟩) := by
  refine ⟨?_, ?_, by decide, by decide⟩
  · intro d
    refine ⟨?_, ?_, ?_⟩
    · intro h
      simp [weekendShift, h]
    · intro h
      simp [weekendShift, h]
    · intro h
      have h5 : d.weekday ≠ 5 := by omega
      have h6 : d.weekday ≠ 6 := by omega
      simp [weekendShift, h5, h6]
  · intro today r bd bty hb hys
    constructor
    · intro hc
      simp [processRecord, hb, hys, hc]
    · intro hc
      simp [processRecord, hb, hys, hc]

/-- C3 witness: 25.05.2024 is a Saturday so is shifted +2 days, and the
record for Eve is processed into an entry carrying the shifted date. -/
theorem upcoming_weekend_shift_semantics_witness :
    weekendShift ⟨2024, 5, 25⟩ = addDays 2 ⟨2024, 5, 25⟩ ∧
    processRecord ⟨2024, 5, 19⟩ ⟨"Eve", [], some ⟨1990, 5, 25⟩⟩
      = some (some ("Eve", (weekendShift ⟨2024, 5, 25⟩).format)) := by
  have T := upcoming_weekend_shift_semantics
  exact ⟨(T.1 ⟨2024, 5, 25⟩).1 (by decide),
    (T.2.1 ⟨2024, 5, 19⟩ ⟨"Eve", [], some ⟨1990, 5, 25⟩⟩ ⟨1990, 5, 25⟩
      ⟨2024, 5, 25⟩ rfl (by decide)).1 (by decide)⟩

/-- C4: the concrete scenario of the spec (today 20.05.2024; Ann 22.05,
Bob 25.05 shifted to 27.05, Cid 30.05 excluded), and in general a name is
reported exactly when some record with that name has a birthday whose
year-shifted date lies 0 to 7 days (inclusive) from today. -/
theorem upcoming_window_semantics :
    AddressBook.get_upcoming_birthdays
      [("Ann", ⟨"Ann", [], some ⟨2024, 5, 22⟩⟩),
       ("Bob", ⟨"Bob", [], some ⟨2024, 5, 25⟩⟩),
       ("Cid", ⟨"Cid", [], some ⟨2024, 5, 30⟩⟩)] ⟨2024, 5, 20⟩
      = some [("Ann", "22.05.2024"), ("Bob", "27.05.2024")] ∧
    (∀ (today : PyDate) (b : AddressBook) (L : List (String × String))
      (name : String),
      b.get_upcoming_birthdays today = some L →
      ((∃ date, (name, date) ∈ L) ↔
        ∃ r, r ∈ b.map Prod.snd ∧ r.name = name ∧
          ∃ bd bty, r.birthday = some bd ∧ yearShift today bd = some bty ∧
            0 ≤ daysDelta today bty ∧ daysDelta today bty ≤ 7)) := by
  constructor
  · decide
  · intro today b L name h
    constructor
    · rintro ⟨date, hmem⟩
      obtain ⟨r, hm, hp⟩ := (mem_upcomingAux h (name, date)).mp hmem
      cases hb : r.birthday with
      | none => simp [processRecord, hb] at hp
      | some bd =>
        simp only [processRecord, hb] at hp
        cases hys : yearShift today bd with
        | none => simp [hys] at hp
        | some bty =>
          simp only [hys] at hp
          by_cases hc : 0 ≤ daysDelta today bty ∧ daysDelta today bty ≤ 7
          · rw [if_pos hc] at hp
            have hpair := Option.some.inj (Option.some.inj hp)
            have h1 : r.name = name := congrArg Prod.fst hpair
            exact ⟨r, hm, h1, bd, bty, hb, hys, hc.1, hc.2⟩
          · rw [if_neg hc] at hp
            simp at hp
    · rintro ⟨r, hm, hname, bd, bty, hb, hys, h0, h7⟩
      refine ⟨(weekendShift bty).format, ?_⟩
      apply (mem_upcomingAux h (name, (weekendShift bty).format)).mpr
      refine ⟨r, hm, ?_⟩
      simp [processRecord, hb, hys, h0, h7, hname]

/-- C4 witness: in the scenario book, Ann is reported, and the general window
characterization instantiated there exhibits her qualifying record. -/
theorem upcoming_window_semantics_witness :
    ∃ r, r ∈ (([("Ann", ⟨"Ann", [], some ⟨2024, 5, 22⟩⟩),
        ("Bob", ⟨"Bob", [], some ⟨2024, 5, 25⟩⟩),
        ("Cid", ⟨"Cid", [], some ⟨2024, 5, 30⟩⟩)] : AddressBook).map Prod.snd) ∧
      r.name = "Ann" ∧
      ∃ bd bty, r.birthday = some bd ∧ yearShift ⟨2024, 5, 20⟩ bd = some bty ∧
        0 ≤ daysDelta ⟨2024, 5, 20⟩ bty ∧ daysDelta ⟨2024, 5, 20⟩ bty ≤ 7 := by
  have T := upcoming_window_semantics
  exact (T.2 ⟨2024, 5, 20⟩ _ _ "Ann" T.1).mp ⟨"22.05.2024", by decide⟩
